import Mathlib

/-!
Shallow embedding of the easycache in-memory cache (Go): the four eviction
engines (Basic/TTL, FIFO, LRU, LFU) and the coordinating cache facade.

Modelling conventions:
* Go `time.Time` instants and `time.Duration` values are natural numbers;
  `t.After(u)` is `u < t` and `t.Before(u)` is `t < u`.
* Go maps are association lists with update-in-place insertion; the pointer
  identity of `container/list` elements and of LFU heap items is modelled by
  an arena (`List` indexed by stable ids), since Go shares those items
  mutably between the primary map and the auxiliary structure.
* Operations that can dereference out of range in Go (a panic) return
  `Option`; `none` models the panic.
* The two background goroutines (TTL sweep, memory-pressure loop) and the
  locks are outside the sequential model; every operation is atomic here.
-/

abbrev Key := String
abbrev Val := String

/-- Go map lookup `v, ok := m[k]` on an association list. -/
def mapLookup {β : Type} (l : List (Key × β)) (k : Key) : Option β :=
  (l.find? (fun p => p.1 == k)).map (fun p => p.2)

/-- Go map insertion `m[k] = v`: update in place, else append. -/
def mapInsert {β : Type} (l : List (Key × β)) (k : Key) (v : β) :
    List (Key × β) :=
  match l with
  | [] => [(k, v)]
  | p :: t => if p.1 == k then (k, v) :: t else p :: mapInsert t k v

/-- Go map deletion `delete(m, k)`. -/
def mapDelete {β : Type} (l : List (Key × β)) (k : Key) : List (Key × β) :=
  l.filter (fun p => !(p.1 == k))

/- ## Basic (TTL) engine, basic/basic.go -/

/-- One stored item of the Basic engine (`cacheItem` in basic.go). -/
structure BEntry where
  key : Key
  value : Val
  expiresAt : Nat
deriving Repr, DecidableEq

/-- State of the Basic engine: the `data` map plus the construction-time
default TTL (`Basic` struct in basic.go, locks omitted). -/
structure BasicState where
  data : List (Key × BEntry)
  ttl : Nat
deriving Repr, DecidableEq

/-- `Basic.Get`: found iff present and not strictly past its expiry; an
absent or expired read issues `delete(c.data, key)` before reporting
not-found. -/
def basicGet (k : Key) (now : Nat) (s : BasicState) :
    Option Val × BasicState :=
  match mapLookup s.data k with
  | none => (none, { s with data := mapDelete s.data k })
  | some e =>
    if e.expiresAt < now then
      (none, { s with data := mapDelete s.data k })
    else
      (some e.value, s)

/-- `Basic.Set`: upsert with expiry `now + ttl`. -/
def basicSet (k : Key) (v : Val) (now : Nat) (s : BasicState) : BasicState :=
  { s with data := mapInsert s.data k ⟨k, v, now + s.ttl⟩ }

/-- `Basic.SetWithTTL`: upsert with an explicit absolute expiry instant. -/
def basicSetWithTTL (k : Key) (v : Val) (expiresAt : Nat) (s : BasicState) :
    BasicState :=
  { s with data := mapInsert s.data k ⟨k, v, expiresAt⟩ }

/-- `Basic.Delete`. -/
def basicDelete (k : Key) (s : BasicState) : BasicState :=
  { s with data := mapDelete s.data k }

/-- `Basic.Has`: present and not strictly past its expiry. -/
def basicHas (k : Key) (now : Nat) (s : BasicState) : Bool :=
  match mapLookup s.data k with
  | none => false
  | some e => !(decide (e.expiresAt < now))

/-- `Basic.Len`: counts entries whose expiry is strictly in the future. -/
def basicLen (now : Nat) (s : BasicState) : Nat :=
  s.data.countP (fun p => decide (now < p.2.expiresAt))

/-- `Basic.Evict`: removes every entry whose expiry is strictly past. -/
def basicEvict (now : Nat) (s : BasicState) : BasicState :=
  { s with data := s.data.filter (fun p => !(decide (p.2.expiresAt < now))) }

/-- `Basic.IsExpired`: absent keys count as expired. -/
def basicIsExpired (k : Key) (now : Nat) (s : BasicState) : Bool :=
  match mapLookup s.data k with
  | none => true
  | some e => decide (e.expiresAt < now)

/- ## FIFO and LRU engines, fifo/fifo.go and lru/lru.go

Both engines keep a map from key to a `container/list` element whose value
is a `cacheItem{key, value}`.  Elements are modelled by an arena of nodes;
the map stores arena ids and the eviction list is a list of arena ids
(front first). -/

/-- A `container/list` element payload (`cacheItem` in fifo.go / lru.go). -/
structure LNode where
  key : Key
  value : Val
deriving Repr, DecidableEq

/-- State shared by the FIFO and LRU engines: node arena, key to node-id
map (`data`), eviction list of node ids, front first (`evictionList`). -/
structure ListState where
  arena : List LNode
  data : List (Key × Nat)
  order : List Nat
deriving Repr, DecidableEq

/-- The fresh FIFO/LRU engine state. -/
def emptyListState : ListState := ⟨[], [], []⟩

/-- `FIFO.Get`: lookup only, no effect on the ordering. -/
def fifoGet (k : Key) (s : ListState) : Option (Option Val × ListState) :=
  match mapLookup s.data k with
  | none => some (none, s)
  | some id =>
    match s.arena[id]? with
    | none => none
    | some n => some (some n.value, s)

/-- `FIFO.Set`: update in place for an existing key (queue position kept),
append to the queue tail for a new key. -/
def fifoSet (k : Key) (v : Val) (s : ListState) : Option ListState :=
  match mapLookup s.data k with
  | some id =>
    match s.arena[id]? with
    | none => none
    | some n => some { s with arena := s.arena.set id { n with value := v } }
  | none =>
    let id := s.arena.length
    some ⟨s.arena ++ [⟨k, v⟩], mapInsert s.data k id, s.order ++ [id]⟩

/-- `FIFO.Delete`: remove the element from the list and the key from the
map; no-op when absent. -/
def fifoDelete (k : Key) (s : ListState) : ListState :=
  match mapLookup s.data k with
  | none => s
  | some id => ⟨s.arena, mapDelete s.data k, s.order.erase id⟩

/-- `FIFO.Has`. -/
def fifoHas (k : Key) (s : ListState) : Bool :=
  (mapLookup s.data k).isSome

/-- `FIFO.Len`. -/
def fifoLen (s : ListState) : Nat := s.data.length

/-- `FIFO.Evict`: remove the queue head (earliest inserted); no-op when the
map is empty or the list has no front element. -/
def fifoEvict (s : ListState) : Option ListState :=
  if s.data.length = 0 then some s
  else
    match s.order.head? with
    | none => some s
    | some id =>
      match s.arena[id]? with
      | none => none
      | some n => some ⟨s.arena, mapDelete s.data n.key, s.order.tail⟩

/-- `LRU.Get`: on a hit the element moves to the front of the order list
(most recently used). -/
def lruGet (k : Key) (s : ListState) : Option (Option Val × ListState) :=
  match mapLookup s.data k with
  | none => some (none, s)
  | some id =>
    match s.arena[id]? with
    | none => none
    | some n => some (some n.value, ⟨s.arena, s.data, id :: s.order.erase id⟩)

/-- `LRU.Set`: an existing key moves to the front and its value is
updated; a new key is pushed at the front. -/
def lruSet (k : Key) (v : Val) (s : ListState) : Option ListState :=
  match mapLookup s.data k with
  | some id =>
    match s.arena[id]? with
    | none => none
    | some n =>
      some ⟨s.arena.set id { n with value := v }, s.data,
        id :: s.order.erase id⟩
  | none =>
    let id := s.arena.length
    some ⟨s.arena ++ [⟨k, v⟩], mapInsert s.data k id, id :: s.order⟩

/-- `LRU.Delete`. -/
def lruDelete (k : Key) (s : ListState) : ListState :=
  match mapLookup s.data k with
  | none => s
  | some id => ⟨s.arena, mapDelete s.data k, s.order.erase id⟩

/-- `LRU.Has`. -/
def lruHas (k : Key) (s : ListState) : Bool :=
  (mapLookup s.data k).isSome

/-- `LRU.Len`. -/
def lruLen (s : ListState) : Nat := s.data.length

/-- `LRU.Evict`: remove the back of the order list (least recently used);
no-op when the map is empty or the list has no back element. -/
def lruEvict (s : ListState) : Option ListState :=
  if s.data.length = 0 then some s
  else
    match s.order.getLast? with
    | none => some s
    | some id =>
      match s.arena[id]? with
      | none => none
      | some n => some ⟨s.arena, mapDelete s.data n.key, s.order.dropLast⟩

/- ## LFU engine, lfu package

The heap (`lfuHeap`, a `[]*cacheItem` driven by Go's `container/heap`)
shares its items mutably with the `data` map, so items live in an arena;
the heap is a list of arena ids (position in the list = heap index) and
the map sends keys to arena ids.  Each item records its own heap index in
an `index` field, maintained by `Swap` — and, crucially, overwritten by
`LFU.Set` after every push.  Out-of-range accesses, which panic in Go,
yield `none`. -/

/-- An LFU `cacheItem`: key, value, access counter, recorded heap index. -/
structure LFUItem where
  key : Key
  value : Val
  frequency : Nat
  index : Nat
deriving Repr, DecidableEq

/-- The heap part of the LFU state: item arena plus the heap slice of
arena ids (`lfuHeap`). -/
structure HeapSt where
  arena : List LFUItem
  heapL : List Nat
deriving Repr, DecidableEq

/-- `lfuHeap.Less i j`: compare the access counters of the items at heap
positions `i` and `j`; out of range is a Go panic (`none`). -/
def hLess (s : HeapSt) (i j : Nat) : Option Bool :=
  match s.heapL[i]?, s.heapL[j]? with
  | some x, some y =>
    match s.arena[x]?, s.arena[y]? with
    | some a, some b => some (decide (a.frequency < b.frequency))
    | _, _ => none
  | _, _ => none

/-- `lfuHeap.Swap i j`: exchange heap positions `i` and `j` and record the
new position in each item's `index` field. -/
def hSwap (s : HeapSt) (i j : Nat) : Option HeapSt :=
  match s.heapL[i]?, s.heapL[j]? with
  | some x, some y =>
    match s.arena[x]?, s.arena[y]? with
    | some a, some b =>
      some ⟨(s.arena.set y { b with index := i }).set x { a with index := j },
        (s.heapL.set i y).set j x⟩
    | _, _ => none
  | _, _ => none

/-- `container/heap`'s `up` loop, with explicit fuel for the loop (the
parent index `(j-1)/2` strictly decreases, so fuel `j+1` is enough). -/
def upF (fuel : Nat) (s : HeapSt) (j : Nat) : Option HeapSt :=
  match fuel with
  | 0 => none
  | fuel + 1 =>
    if j = 0 then some s
    else
      let i := (j - 1) / 2
      match hLess s j i with
      | none => none
      | some b =>
        if b then
          match hSwap s j i with
          | none => none
          | some s1 => upF fuel s1 i
        else some s

/-- `up(h, j)` with sufficient fuel. -/
def hUp (s : HeapSt) (j : Nat) : Option HeapSt := upF (j + 1) s j

/-- `container/heap`'s `down` loop body, with explicit fuel (the index `i`
strictly increases and stays below `n`, so fuel `n+1` is enough); returns
the final index together with the state. -/
def downF (fuel : Nat) (s : HeapSt) (i n : Nat) : Option (HeapSt × Nat) :=
  match fuel with
  | 0 => none
  | fuel + 1 =>
    let j1 := 2 * i + 1
    if n ≤ j1 then some (s, i)
    else
      let j2 := j1 + 1
      let bj : Option Nat :=
        if j2 < n then
          match hLess s j2 j1 with
          | none => none
          | some b2 => some (if b2 then j2 else j1)
        else some j1
      match bj with
      | none => none
      | some j =>
        match hLess s j i with
        | none => none
        | some b =>
          if b then
            match hSwap s i j with
            | none => none
            | some s1 => downF fuel s1 j n
          else some (s, i)

/-- `down(h, i0, n)` with sufficient fuel; the boolean is `i > i0`
(whether the element moved). -/
def hDown (s : HeapSt) (i n : Nat) : Option (HeapSt × Bool) :=
  match downF (n + 1) s i n with
  | none => none
  | some (s1, i1) => some (s1, decide (i < i1))

/-- `heap.Push`: the slice `Push` sets the new item's `index` to the old
length and appends; then the item sifts up from the last position. -/
def hPush (s : HeapSt) (id : Nat) : Option HeapSt :=
  let n := s.heapL.length
  match s.arena[id]? with
  | none => none
  | some it =>
    hUp ⟨s.arena.set id { it with index := n }, s.heapL ++ [id]⟩ n

/-- `heap.Pop`: swap the root with the last element, sift down over the
shortened range, then remove and return the last element.  On an empty
heap Go indexes `l[-1]` and panics. -/
def hPop (s : HeapSt) : Option (Nat × HeapSt) :=
  match s.heapL.length with
  | 0 => none
  | m + 1 =>
    match hSwap s 0 m with
    | none => none
    | some s1 =>
      match hDown s1 0 m with
      | none => none
      | some (s2, _) =>
        match s2.heapL.getLast? with
        | none => none
        | some id => some (id, ⟨s2.arena, s2.heapL.dropLast⟩)

/-- `heap.Remove i`: unless `i` is already the last position, swap it with
the last, re-balance over the shortened range, then drop the last
element.  On an empty heap Go panics. -/
def hRemove (s : HeapSt) (i : Nat) : Option HeapSt :=
  match s.heapL.length with
  | 0 => none
  | m + 1 =>
    if m = i then some ⟨s.arena, s.heapL.dropLast⟩
    else
      match hSwap s i m with
      | none => none
      | some s1 =>
        match hDown s1 i m with
        | none => none
        | some (s2, moved) =>
          match if moved then some s2 else hUp s2 i with
          | none => none
          | some s3 => some ⟨s3.arena, s3.heapL.dropLast⟩

/-- `heap.Fix i`: sift down from `i` over the whole heap; if nothing
moved, sift up from `i`. -/
def hFix (s : HeapSt) (i : Nat) : Option HeapSt :=
  match hDown s i s.heapL.length with
  | none => none
  | some (s1, moved) => if moved then some s1 else hUp s1 i

/-- State of the LFU engine: heap (arena + slice) plus the key map. -/
structure LFUState where
  hp : HeapSt
  data : List (Key × Nat)
deriving Repr, DecidableEq

/-- The fresh LFU engine state. -/
def emptyLFU : LFUState := ⟨⟨[], []⟩, []⟩

/-- `LFU.Get`: on a hit, increment the item's counter and `heap.Fix` at
the item's recorded index. -/
def lfuGet (k : Key) (s : LFUState) : Option (Option Val × LFUState) :=
  match mapLookup s.data k with
  | none => some (none, s)
  | some id =>
    match s.hp.arena[id]? with
    | none => none
    | some it =>
      let hp1 : HeapSt :=
        ⟨s.hp.arena.set id { it with frequency := it.frequency + 1 },
          s.hp.heapL⟩
      match hFix hp1 it.index with
      | none => none
      | some hp2 => some (some it.value, ⟨hp2, s.data⟩)

/-- `LFU.Set`: an existing key gets the new value, an incremented counter
and a `heap.Fix`; a new key is pushed with counter 1 — after which the
code overwrites the item's `index` field with `Len()-1`, regardless of
where the push left the item. -/
def lfuSet (k : Key) (v : Val) (s : LFUState) : Option LFUState :=
  match mapLookup s.data k with
  | some id =>
    match s.hp.arena[id]? with
    | none => none
    | some it =>
      let hp1 : HeapSt :=
        ⟨s.hp.arena.set id
          { it with value := v, frequency := it.frequency + 1 },
          s.hp.heapL⟩
      match hFix hp1 it.index with
      | none => none
      | some hp2 => some ⟨hp2, s.data⟩
  | none =>
    let id := s.hp.arena.length
    let hp0 : HeapSt := ⟨s.hp.arena ++ [⟨k, v, 1, 0⟩], s.hp.heapL⟩
    match hPush hp0 id with
    | none => none
    | some hp2 =>
      match hp2.arena[id]? with
      | none => none
      | some it2 =>
        some ⟨⟨hp2.arena.set id { it2 with index := hp2.heapL.length - 1 },
          hp2.heapL⟩, mapInsert s.data k id⟩

/-- `LFU.Delete`: `heap.Remove` at the item's recorded index, then delete
from the map; no-op when absent. -/
def lfuDelete (k : Key) (s : LFUState) : Option LFUState :=
  match mapLookup s.data k with
  | none => some s
  | some id =>
    match s.hp.arena[id]? with
    | none => none
    | some it =>
      match hRemove s.hp it.index with
      | none => none
      | some hp2 => some ⟨hp2, mapDelete s.data k⟩

/-- `LFU.Has`. -/
def lfuHas (k : Key) (s : LFUState) : Bool :=
  (mapLookup s.data k).isSome

/-- `LFU.Len`. -/
def lfuLen (s : LFUState) : Nat := s.data.length

/-- `LFU.Evict`: no-op when the map is empty; otherwise `heap.Pop` and
delete the popped item's key from the map. -/
def lfuEvict (s : LFUState) : Option LFUState :=
  if s.data.length = 0 then some s
  else
    match hPop s.hp with
    | none => none
    | some (id, hp2) =>
      match hp2.arena[id]? with
      | none => none
      | some it => some ⟨hp2, mapDelete s.data it.key⟩

/- ## Engine dispatch and cache facade (cache package) -/

/-- The eviction policy selector (`EvictionPolicy`). -/
inductive Policy
  | basic
  | fifo
  | lru
  | lfu
deriving Repr, DecidableEq

/-- The state of whichever engine the facade constructed. -/
inductive EngSt
  | basic (s : BasicState)
  | fifo (s : ListState)
  | lru (s : ListState)
  | lfu (s : LFUState)
deriving Repr, DecidableEq

/-- `Engine.Get` dispatch. -/
def engGet (e : EngSt) (k : Key) (now : Nat) :
    Option (Option Val × EngSt) :=
  match e with
  | .basic s => some ((basicGet k now s).1, .basic (basicGet k now s).2)
  | .fifo s => (fifoGet k s).map (fun r => (r.1, .fifo r.2))
  | .lru s => (lruGet k s).map (fun r => (r.1, .lru r.2))
  | .lfu s => (lfuGet k s).map (fun r => (r.1, .lfu r.2))

/-- `Engine.Set` dispatch (the Basic engine stamps `now + ttl`). -/
def engSet (e : EngSt) (k : Key) (v : Val) (now : Nat) : Option EngSt :=
  match e with
  | .basic s => some (.basic (basicSet k v now s))
  | .fifo s => (fifoSet k v s).map .fifo
  | .lru s => (lruSet k v s).map .lru
  | .lfu s => (lfuSet k v s).map .lfu

/-- `Engine.SetWithTTL` dispatch; FIFO/LRU/LFU ignore the expiry and
perform a plain upsert. -/
def engSetWithTTL (e : EngSt) (k : Key) (v : Val) (expiresAt : Nat) :
    Option EngSt :=
  match e with
  | .basic s => some (.basic (basicSetWithTTL k v expiresAt s))
  | .fifo s => (fifoSet k v s).map .fifo
  | .lru s => (lruSet k v s).map .lru
  | .lfu s => (lfuSet k v s).map .lfu

/-- `Engine.Delete` dispatch. -/
def engDelete (e : EngSt) (k : Key) : Option EngSt :=
  match e with
  | .basic s => some (.basic (basicDelete k s))
  | .fifo s => some (.fifo (fifoDelete k s))
  | .lru s => some (.lru (lruDelete k s))
  | .lfu s => (lfuDelete k s).map .lfu

/-- `Engine.Has` dispatch. -/
def engHas (e : EngSt) (k : Key) (now : Nat) : Bool :=
  match e with
  | .basic s => basicHas k now s
  | .fifo s => fifoHas k s
  | .lru s => lruHas k s
  | .lfu s => lfuHas k s

/-- `Engine.Len` dispatch. -/
def engLen (e : EngSt) (now : Nat) : Nat :=
  match e with
  | .basic s => basicLen now s
  | .fifo s => fifoLen s
  | .lru s => lruLen s
  | .lfu s => lfuLen s

/-- `Engine.IsExpirable`: true only for the Basic engine. -/
def engIsExpirable (e : EngSt) : Bool :=
  match e with
  | .basic _ => true
  | _ => false

/-- `Engine.IsExpired`: always false for the non-expirable engines. -/
def engIsExpired (e : EngSt) (k : Key) (now : Nat) : Bool :=
  match e with
  | .basic s => basicIsExpired k now s
  | _ => false

/-- `Engine.Evict` dispatch. -/
def engEvict (e : EngSt) (now : Nat) : Option EngSt :=
  match e with
  | .basic s => some (.basic (basicEvict now s))
  | .fifo s => (fifoEvict s).map .fifo
  | .lru s => (lruEvict s).map .lru
  | .lfu s => (lfuEvict s).map .lfu

/-- The construction-time configuration options the sequential model
needs (`Config`, minus the background-loop cadences). -/
structure Config where
  policy : Policy
  maxSize : Nat
  ttl : Nat
  metricsEnabled : Bool
deriving Repr, DecidableEq

/-- Facade state: the owned engine, the configuration snapshot, and the
two metrics counters. -/
structure CacheState where
  eng : EngSt
  cfg : Config
  hits : Nat
  misses : Nat
deriving Repr, DecidableEq

/-- `cache.New`: construct the engine selected by the policy; metrics
counters start at zero. -/
def cacheNew (cfg : Config) : CacheState :=
  { eng :=
      match cfg.policy with
      | .basic => .basic ⟨[], cfg.ttl⟩
      | .fifo => .fifo emptyListState
      | .lru => .lru emptyListState
      | .lfu => .lfu emptyLFU
    cfg := cfg
    hits := 0
    misses := 0 }

/-- `metrics.IncrementHits`, guarded by the configuration flag. -/
def bumpHit (c : CacheState) : CacheState :=
  if c.cfg.metricsEnabled then { c with hits := c.hits + 1 } else c

/-- `metrics.IncrementMisses`, guarded by the configuration flag. -/
def bumpMiss (c : CacheState) : CacheState :=
  if c.cfg.metricsEnabled then { c with misses := c.misses + 1 } else c

/-- `Cache.Get`: engine lookup, then the expiry double-check, then the
hit/miss metrics update.  The expired re-check branch calls
`c.lock.RUnlock()` on a lock that was never read-locked, which is fatal
in Go; it is `none` here (it is unreachable when the whole call runs at
one instant, because the Basic engine's `Get` already filtered expired
entries at the same instant). -/
def cacheGet (k : Key) (now : Nat) (c : CacheState) :
    Option (Option Val × CacheState) :=
  match engGet c.eng k now with
  | none => none
  | some (r, e1) =>
    match r with
    | none => some (none, bumpMiss { c with eng := e1 })
    | some v =>
      if engIsExpirable e1 && engIsExpired e1 k now then none
      else some (some v, bumpHit { c with eng := e1 })

/-- `Cache.Set`: the expirable engine gets `SetWithTTL(now + TTL)`; an
already-present key is plainly updated; otherwise, when a positive
`MaxSize` is configured and `Len() >= MaxSize`, exactly one `Evict()`
precedes the insert.  Every path counts a metrics "hit". -/
def cacheSet (k : Key) (v : Val) (now : Nat) (c : CacheState) :
    Option CacheState :=
  if engIsExpirable c.eng then
    (engSetWithTTL c.eng k v (now + c.cfg.ttl)).map
      (fun e => bumpHit { c with eng := e })
  else if engHas c.eng k now then
    (engSet c.eng k v now).map (fun e => bumpHit { c with eng := e })
  else if 0 < c.cfg.maxSize && c.cfg.maxSize ≤ engLen c.eng now then
    match engEvict c.eng now with
    | none => none
    | some e1 =>
      (engSet e1 k v now).map (fun e => bumpHit { c with eng := e })
  else
    (engSet c.eng k v now).map (fun e => bumpHit { c with eng := e })

/-- `Cache.Delete`. -/
def cacheDelete (k : Key) (c : CacheState) : Option CacheState :=
  (engDelete c.eng k).map (fun e => { c with eng := e })

/-- `Cache.Has`. -/
def cacheHas (k : Key) (now : Nat) (c : CacheState) : Bool :=
  engHas c.eng k now

/-- `Cache.Len`. -/
def cacheLen (now : Nat) (c : CacheState) : Nat :=
  engLen c.eng now

/-- `Cache.Evict`. -/
def cacheEvict (now : Nat) (c : CacheState) : Option CacheState :=
  (engEvict c.eng now).map (fun e => { c with eng := e })

/-- One outward facade operation. -/
inductive Op
  | get (k : Key)
  | set (k : Key) (v : Val)
  | del (k : Key)
  | has (k : Key)
  | len
  | evict
deriving Repr, DecidableEq

/-- Run one facade operation at instant `now` (query results discarded;
`has` and `len` leave the state unchanged). -/
def runOp (op : Op) (now : Nat) (c : CacheState) : Option CacheState :=
  match op with
  | .get k => (cacheGet k now c).map (fun r => r.2)
  | .set k v => cacheSet k v now c
  | .del k => cacheDelete k c
  | .has _ => some c
  | .len => some c
  | .evict => cacheEvict now c

/-- Run a sequence of facade operations, each with its own instant. -/
def runOps (l : List (Op × Nat)) (c : CacheState) : Option CacheState :=
  match l with
  | [] => some c
  | (op, now) :: t =>
    match runOp op now c with
    | none => none
    | some c1 => runOps t c1

/-- One LFU engine-level operation (for engine-only sequences). -/
inductive EOp
  | get (k : Key)
  | set (k : Key) (v : Val)
  | del (k : Key)
  | evict
deriving Repr, DecidableEq

/-- Run one LFU engine operation. -/
def runLfuOp (op : EOp) (s : LFUState) : Option LFUState :=
  match op with
  | .get k => (lfuGet k s).map (fun r => r.2)
  | .set k v => lfuSet k v s
  | .del k => lfuDelete k s
  | .evict => lfuEvict s

/-- Run a sequence of LFU engine operations. -/
def runLfu (l : List EOp) (s : LFUState) : Option LFUState :=
  match l with
  | [] => some s
  | op :: t =>
    match runLfuOp op s with
    | none => none
    | some s1 => runLfu t s1

/-- The keys currently held in the LFU heap slice, in heap order. -/
def heapKeys (s : LFUState) : List Key :=
  s.hp.heapL.filterMap (fun id => (s.hp.arena[id]?).map (fun it => it.key))

/-- The access counter currently recorded for key `k` (through the map). -/
def freqOf (s : LFUState) (k : Key) : Option Nat :=
  match mapLookup s.data k with
  | none => none
  | some id => (s.hp.arena[id]?).map (fun it => it.frequency)

/- ## Concrete keys, values and configurations used by the theorems -/

def kA : Key := "A"
def kB : Key := "B"
def kC : Key := "C"
def kD : Key := "D"

def vW : Val := "w"
def vX : Val := "x"
def vY : Val := "y"
def vZ : Val := "z"

/-- LFU facade with capacity bound 2, metrics off. -/
def cfgLfu2 : Config := ⟨.lfu, 2, 0, false⟩

/-- LRU facade with capacity bound 2, metrics off. -/
def cfgLru2 : Config := ⟨.lru, 2, 0, false⟩

/-- FIFO facade with capacity bound 2, metrics off. -/
def cfgFifo2 : Config := ⟨.fifo, 2, 0, false⟩

/- ## Claim theorems -/

/-- C1, failing input.  The claim says a facade on a capacity-bounded
policy with positive `MaxSize` never lets `len()` exceed `MaxSize`.  On
the LFU policy with `MaxSize = 2`, the facade sequence
`set A; get A; set B; delete B; set C; set D` (all at one instant) ends
with `len() = 3`.  The root cause is `LFU.Set` overwriting the heap index
that `heap.Push` maintained, so `delete B` removed item A from the heap
while leaving B in it, and the later eviction popped B — a key no longer
in the map — so the map never shrank before the final insert. -/
theorem spec_c1_lfu_capacity_overflow :
    (runOps [(.set kA vX, 0), (.get kA, 0), (.set kB vY, 0),
        (.del kB, 0), (.set kC vZ, 0), (.set kD vW, 0)]
      (cacheNew cfgLfu2)).map
      (fun c => (c.cfg.maxSize, cacheLen 0 c)) = some (2, 3) := by
  decide

/-- C2, failing input.  The claim says the key set of the primary map
always equals the key set of the auxiliary structure.  For the LFU engine
the four-operation sequence `set A; get A; set B; delete B` ends with map
key set `{A}` but heap key set `{B}`: `LFU.Set` overwrote B's heap index
(set by `heap.Push` to 0 after the sift-up) with `Len()-1 = 1`, so
`heap.Remove` on the delete removed item A instead of B. -/
theorem spec_c2_lfu_structure_desync :
    (runLfu [.set kA vX, .get kA, .set kB vY, .del kB] emptyLFU).map
      (fun s => (s.data.map Prod.fst, heapKeys s)) =
      some ([kA], [kB]) := by
  decide

/-- C6, failing input.  The claim says an LFU `evict` on a non-empty
engine removes an entry with a minimal access counter.  After
`set A; get A; get A; set B; set C; get B` the counters are A = 3, B = 2,
C = 1, yet `evict` removes B while C (counter 1) stays: the overwritten
heap index left the heap slice out of min-heap order (`get B` re-balanced
the wrong position), so `heap.Pop` returned a non-minimal item. -/
theorem spec_c6_lfu_evict_not_minimal :
    ((runLfu [.set kA vX, .get kA, .get kA, .set kB vY, .set kC vZ,
        .get kB] emptyLFU).map
      (fun s => (freqOf s kA, freqOf s kB, freqOf s kC)) =
      some (some 3, some 2, some 1)) ∧
    ((runLfu [.set kA vX, .get kA, .get kA, .set kB vY, .set kC vZ,
        .get kB, .evict] emptyLFU).map
      (fun s => (lfuHas kA s, lfuHas kB s, lfuHas kC s, freqOf s kC)) =
      some (true, false, true, some 1)) := by
  constructor
  · decide
  · decide

/-- The Basic-engine state holding one entry that expires at instant 5. -/
def c8State : BasicState := basicSetWithTTL kA vX 5 ⟨[], 0⟩

/-- C8, counterexample.  At the exact expiry instant of a stored key,
`has` still reports the key (`Has` uses `time.Now().After`, strict) while
`Len` does not count it (`Len` uses `expiresAt.After(now)`, also strict),
so `len()` is not the number of keys for which `has()` returns true at
that same instant: here `has = true`, one stored has-true key, but
`len() = 0`. -/
theorem spec_c8_len_has_boundary_cex :
    basicHas kA 5 c8State = true ∧
    (c8State.data.filter (fun p => basicHas p.1 5 c8State)).length = 1 ∧
    basicLen 5 c8State = 0 ∧
    ¬ (basicLen 5 c8State =
        (c8State.data.filter (fun p => basicHas p.1 5 c8State)).length) := by
  decide

/- ## Helper lemmas about the map and list models -/

theorem mapLookup_insert_self {β : Type} (l : List (Key × β)) (k : Key)
    (v : β) : mapLookup (mapInsert l k v) k = some v := by
  induction l with
  | nil => simp [mapInsert, mapLookup, List.find?]
  | cons p t ih =>
    by_cases h : p.1 = k
    · simp [mapInsert, mapLookup, List.find?, h]
    · have hb : (p.1 == k) = false := by simpa using h
      simp only [mapInsert, hb, if_false]
      simpa [mapLookup, List.find?, hb] using ih

theorem mapLookup_delete_self {β : Type} (l : List (Key × β)) (k : Key) :
    mapLookup (mapDelete l k) k = none := by
  induction l with
  | nil => simp [mapDelete, mapLookup, List.find?]
  | cons p t ih =>
    by_cases h : p.1 = k
    · have hb : (p.1 == k) = true := by simpa using h
      simpa [mapDelete, List.filter, hb] using ih
    · have hb : (p.1 == k) = false := by simpa using h
      simp only [mapDelete] at ih ⊢
      simp [List.filter, hb, mapLookup, List.find?, ih]

theorem getElem?_append_length {α : Type} (l : List α) (a : α) :
    (l ++ [a])[l.length]? = some a := by
  induction l with
  | nil => rfl
  | cons x t ih => simp only [List.cons_append, List.length_cons,
      List.getElem?_cons_succ]; exact ih

theorem getElem?_set_self {α : Type} (l : List α) (n : Nat) (a b : α)
    (h : l[n]? = some a) : (l.set n b)[n]? = some b := by
  induction l generalizing n with
  | nil => simp at h
  | cons x t ih =>
    cases n with
    | zero => simp [List.set]
    | succ m => simpa using ih m (by simpa using h)

theorem getElem?_set_other {α : Type} (l : List α) (m n : Nat) (b : α)
    (h : m ≠ n) : (l.set m b)[n]? = l[n]? := by
  induction l generalizing m n with
  | nil => simp
  | cons x t ih =>
    cases m with
    | zero =>
      cases n with
      | zero => exact absurd rfl h
      | succ j => simp [List.set]
    | succ i =>
      cases n with
      | zero => simp [List.set]
      | succ j =>
        simp only [List.set]
        simpa using ih i j (fun hc => h (by rw [hc]))

/- ## Shadow of the LFU arena: the heap-balancing code mutates only the
`index` field, so the key, value and counter of every arena slot are
invariant under `Swap`, `up`, `down`, `Fix` and the sift in `Push`. -/

/-- The per-item data the heap code never changes. -/
def itemVals (a : List LFUItem) : List (Key × Val × Nat) :=
  a.map (fun it => (it.key, it.value, it.frequency))

theorem itemVals_set_index (l : List LFUItem) (i : Nat) (it : LFUItem)
    (h : l[i]? = some it) (newIdx : Nat) :
    itemVals (l.set i { it with index := newIdx }) = itemVals l := by
  induction l generalizing i with
  | nil => simp at h
  | cons x t ih =>
    cases i with
    | zero =>
      simp only [List.getElem?_cons_zero, Option.some.injEq] at h
      subst h
      simp [itemVals]
    | succ m =>
      simp only [List.getElem?_cons_succ] at h
      simp only [List.set, itemVals, List.map] at ih ⊢
      exact congrArg _ (ih m h)

theorem itemVals_getElem? (a b : List LFUItem) (h : itemVals a = itemVals b)
    (i : Nat) (it : LFUItem) (ha : a[i]? = some it) :
    ∃ it2, b[i]? = some it2 ∧ it2.key = it.key ∧ it2.value = it.value ∧
      it2.frequency = it.frequency := by
  have h1 : (itemVals a)[i]? = (itemVals b)[i]? := by rw [h]
  simp only [itemVals, List.getElem?_map, ha, Option.map_some'] at h1
  cases hb : b[i]? with
  | none => rw [hb] at h1; simp at h1
  | some it2 =>
    rw [hb] at h1
    simp only [Option.map_some', Option.some.injEq] at h1
    exact ⟨it2, rfl, congrArg Prod.fst h1.symm,
      congrArg (fun p => p.2.1) h1.symm, congrArg (fun p => p.2.2) h1.symm⟩

theorem hSwap_shadow (s s1 : HeapSt) (i j : Nat)
    (h : hSwap s i j = some s1) :
    itemVals s1.arena = itemVals s.arena ∧
      s1.heapL.length = s.heapL.length := by
  unfold hSwap at h
  cases hx : s.heapL[i]? with
  | none => simp [hx] at h
  | some x =>
    cases hy : s.heapL[j]? with
    | none => simp [hx, hy] at h
    | some y =>
      simp only [hx, hy] at h
      cases ha : s.arena[x]? with
      | none => simp [ha] at h
      | some a =>
        cases hb : s.arena[y]? with
        | none => simp [ha, hb] at h
        | some b =>
          simp only [ha, hb, Option.some.injEq] at h
          subst h
          constructor
          · by_cases hxy : x = y
            · subst hxy
              rw [ha] at hb
              cases hb
              rw [itemVals_set_index _ _ _
                (getElem?_set_self _ _ _ _ ha) j]
              exact itemVals_set_index _ _ _ ha i
            · have ha2 : ((s.arena.set y { b with index := i })[x]?) =
                  some a := by
                rw [getElem?_set_other _ _ _ _ (fun hc => hxy hc.symm), ha]
              rw [itemVals_set_index _ _ _ ha2 j]
              exact itemVals_set_index _ _ _ hb i
          · simp

theorem upF_shadow (fuel : Nat) (s s1 : HeapSt) (j : Nat)
    (h : upF fuel s j = some s1) :
    itemVals s1.arena = itemVals s.arena ∧
      s1.heapL.length = s.heapL.length := by
  induction fuel generalizing s j with
  | zero => simp [upF] at h
  | succ m ih =>
    unfold upF at h
    by_cases hj : j = 0
    · simp only [hj, if_true] at h
      cases h
      exact ⟨rfl, rfl⟩
    · simp only [hj, if_false] at h
      cases hb : hLess s j ((j - 1) / 2) with
      | none => simp [hb] at h
      | some b =>
        simp only [hb] at h
        by_cases hbv : b = true
        · subst hbv
          simp only [if_true] at h
          cases hs : hSwap s j ((j - 1) / 2) with
          | none => simp [hs] at h
          | some s2 =>
            simp only [hs] at h
            have h1 := ih s2 _ h
            have h2 := hSwap_shadow s s2 _ _ hs
            exact ⟨h1.1.trans h2.1, h1.2.trans h2.2⟩
        · simp only [hbv, if_false] at h
          cases h
          exact ⟨rfl, rfl⟩

theorem downF_shadow (fuel : Nat) (s : HeapSt) (i n : Nat) (s1 : HeapSt)
    (i1 : Nat) (h : downF fuel s i n = some (s1, i1)) :
    itemVals s1.arena = itemVals s.arena ∧
      s1.heapL.length = s.heapL.length := by
  induction fuel generalizing s i with
  | zero => simp [downF] at h
  | succ m ih =>
    unfold downF at h
    by_cases h1 : n ≤ 2 * i + 1
    · simp only [h1, if_true] at h
      cases h
      exact ⟨rfl, rfl⟩
    · simp only [h1, if_false] at h
      by_cases h2 : 2 * i + 1 + 1 < n
      · simp only [h2, if_true] at h
        cases hb2 : hLess s (2 * i + 1 + 1) (2 * i + 1) with
        | none => simp [hb2] at h
        | some b2 =>
          simp only [hb2] at h
          cases hb : hLess s (if b2 then 2 * i + 1 + 1 else 2 * i + 1) i with
          | none => simp [hb] at h
          | some b =>
            simp only [hb] at h
            by_cases hbv : b = true
            · subst hbv
              simp only [if_true] at h
              cases hs : hSwap s i (if b2 then 2 * i + 1 + 1 else 2 * i + 1)
                  with
              | none => simp [hs] at h
              | some s2 =>
                simp only [hs] at h
                have hA := ih s2 _ h
                have hB := hSwap_shadow s s2 _ _ hs
                exact ⟨hA.1.trans hB.1, hA.2.trans hB.2⟩
            · simp only [hbv, if_false] at h
              cases h
              exact ⟨rfl, rfl⟩
      · simp only [h2, if_false] at h
        cases hb : hLess s (2 * i + 1) i with
        | none => simp [hb] at h
        | some b =>
          simp only [hb] at h
          by_cases hbv : b = true
          · subst hbv
            simp only [if_true] at h
            cases hs : hSwap s i (2 * i + 1) with
            | none => simp [hs] at h
            | some s2 =>
              simp only [hs] at h
              have hA := ih s2 _ h
              have hB := hSwap_shadow s s2 _ _ hs
              exact ⟨hA.1.trans hB.1, hA.2.trans hB.2⟩
          · simp only [hbv, if_false] at h
            cases h
            exact ⟨rfl, rfl⟩

theorem hFix_shadow (s s1 : HeapSt) (i : Nat) (h : hFix s i = some s1) :
    itemVals s1.arena = itemVals s.arena ∧
      s1.heapL.length = s.heapL.length := by
  unfold hFix hDown at h
  cases hd : downF (s.heapL.length + 1) s i s.heapL.length with
  | none => simp [hd] at h
  | some p =>
    obtain ⟨s2, i2⟩ := p
    simp only [hd] at h
    by_cases hm : decide (i < i2) = true
    · simp only [hm, if_true] at h
      cases h
      exact downF_shadow _ _ _ _ _ _ hd
    · simp only [hm, if_false] at h
      have h1 := upF_shadow _ _ _ _ h
      have h2 := downF_shadow _ _ _ _ _ _ hd
      exact ⟨h1.1.trans h2.1, h1.2.trans h2.2⟩

theorem hPush_shadow (s s1 : HeapSt) (id : Nat) (h : hPush s id = some s1) :
    itemVals s1.arena = itemVals s.arena ∧
      s1.heapL.length = s.heapL.length + 1 := by
  unfold hPush hUp at h
  cases ha : s.arena[id]? with
  | none => simp [ha] at h
  | some it =>
    simp only [ha] at h
    have h1 := upF_shadow _ _ _ _ h
    refine ⟨h1.1.trans ?_, by simpa using h1.2⟩
    exact itemVals_set_index _ _ _ ha _

/- ## Set-then-get round trips, engine by engine -/

theorem fifoSet_get (k : Key) (v : Val) (s s1 : ListState)
    (h : fifoSet k v s = some s1) : fifoGet k s1 = some (some v, s1) := by
  unfold fifoSet at h
  cases hl : mapLookup s.data k with
  | some id =>
    simp only [hl] at h
    cases ha : s.arena[id]? with
    | none => simp [ha] at h
    | some n =>
      simp only [ha, Option.some.injEq] at h
      subst h
      have h2 : (s.arena.set id { n with value := v })[id]? =
          some { n with value := v } := getElem?_set_self _ _ _ _ ha
      simp [fifoGet, hl, h2]
  | none =>
    simp only [hl, Option.some.injEq] at h
    subst h
    simp [fifoGet, mapLookup_insert_self, getElem?_append_length]

theorem lruSet_get (k : Key) (v : Val) (s s1 : ListState)
    (h : lruSet k v s = some s1) :
    ∃ s2, lruGet k s1 = some (some v, s2) := by
  unfold lruSet at h
  cases hl : mapLookup s.data k with
  | some id =>
    simp only [hl] at h
    cases ha : s.arena[id]? with
    | none => simp [ha] at h
    | some n =>
      simp only [ha, Option.some.injEq] at h
      subst h
      have h2 : (s.arena.set id { n with value := v })[id]? =
          some { n with value := v } := getElem?_set_self _ _ _ _ ha
      refine ⟨⟨s.arena.set id { n with value := v }, s.data,
        id :: (id :: s.order.erase id).erase id⟩, ?_⟩
      simp [lruGet, hl, h2]
  | none =>
    simp only [hl, Option.some.injEq] at h
    subst h
    refine ⟨⟨s.arena ++ [⟨k, v⟩], mapInsert s.data k s.arena.length,
      s.arena.length :: (s.arena.length :: s.order).erase s.arena.length⟩, ?_⟩
    simp [lruGet, mapLookup_insert_self, getElem?_append_length]

theorem lfuSet_lookup (k : Key) (v : Val) (s s1 : LFUState)
    (h : lfuSet k v s = some s1) :
    ∃ id it, mapLookup s1.data k = some id ∧ s1.hp.arena[id]? = some it ∧
      it.value = v := by
  unfold lfuSet at h
  cases hl : mapLookup s.data k with
  | some id =>
    simp only [hl] at h
    cases ha : s.hp.arena[id]? with
    | none => simp [ha] at h
    | some it =>
      simp only [ha] at h
      cases hf : hFix ⟨s.hp.arena.set id
          { it with value := v, frequency := it.frequency + 1 },
          s.hp.heapL⟩ it.index with
      | none => simp [hf] at h
      | some hp2 =>
        simp only [hf, Option.some.injEq] at h
        subst h
        have hset : (s.hp.arena.set id
            { it with value := v, frequency := it.frequency + 1 })[id]? =
            some { it with value := v, frequency := it.frequency + 1 } :=
          getElem?_set_self _ _ _ _ ha
        have hsh := (hFix_shadow _ _ _ hf).1
        obtain ⟨it2, hit2, _, hval, _⟩ :=
          itemVals_getElem? _ _ hsh.symm id _ hset
        exact ⟨id, it2, hl, hit2, hval⟩
  | none =>
    simp only [hl] at h
    cases hp : hPush ⟨s.hp.arena ++ [⟨k, v, 1, 0⟩], s.hp.heapL⟩
        s.hp.arena.length with
    | none => simp [hp] at h
    | some hp2 =>
      simp only [hp] at h
      cases ha2 : hp2.arena[s.hp.arena.length]? with
      | none => simp [ha2] at h
      | some it2 =>
        simp only [ha2, Option.some.injEq] at h
        subst h
        have hbase : (s.hp.arena ++
            [(⟨k, v, 1, 0⟩ : LFUItem)])[s.hp.arena.length]? =
            some ⟨k, v, 1, 0⟩ := getElem?_append_length _ _
        have hsh := (hPush_shadow _ _ _ hp).1
        obtain ⟨it3, hit3, _, hval, _⟩ :=
          itemVals_getElem? _ _ hsh.symm _ _ hbase
        rw [ha2] at hit3
        cases hit3
        refine ⟨s.hp.arena.length, { it2 with index := hp2.heapL.length - 1 },
          mapLookup_insert_self _ _ _, ?_, hval⟩
        exact getElem?_set_self hp2.arena s.hp.arena.length it2
          { it2 with index := hp2.heapL.length - 1 } ha2

theorem lfuGet_value (k : Key) (s : LFUState) (id : Nat) (it : LFUItem)
    (hl : mapLookup s.data k = some id) (ha : s.hp.arena[id]? = some it)
    (r : Option Val) (s2 : LFUState) (h : lfuGet k s = some (r, s2)) :
    r = some it.value := by
  unfold lfuGet at h
  simp only [hl, ha] at h
  cases hf : hFix ⟨s.hp.arena.set id
      { it with frequency := it.frequency + 1 }, s.hp.heapL⟩ it.index with
  | none => simp [hf] at h
  | some hp2 =>
    simp only [hf, Option.some.injEq, Prod.mk.injEq] at h
    exact h.1.symm

theorem engSet_roundtrip (e0 e : EngSt) (k : Key) (v : Val) (now : Nat)
    (h : engSet e0 k v now = some e) (r0 : Option Val) (e1 : EngSt)
    (hg : engGet e k now = some (r0, e1)) : r0 = some v := by
  cases e0 with
  | basic s =>
    simp only [engSet, Option.some.injEq] at h
    subst h
    have hn : ¬ ((⟨k, v, now + s.ttl⟩ : BEntry).expiresAt < now) := by
      simp only [BEntry.expiresAt]
      omega
    simp only [engGet, basicGet, basicSet, mapLookup_insert_self, hn,
      if_false, Option.some.injEq, Prod.mk.injEq] at hg
    exact hg.1.symm
  | fifo s =>
    simp only [engSet] at h
    cases hs : fifoSet k v s with
    | none => simp [hs] at h
    | some s2 =>
      simp only [hs, Option.map_some', Option.some.injEq] at h
      subst h
      simp only [engGet, fifoSet_get k v s s2 hs, Option.map_some',
        Option.some.injEq, Prod.mk.injEq] at hg
      exact hg.1.symm
  | lru s =>
    simp only [engSet] at h
    cases hs : lruSet k v s with
    | none => simp [hs] at h
    | some s2 =>
      simp only [hs, Option.map_some', Option.some.injEq] at h
      subst h
      obtain ⟨sg, hget⟩ := lruSet_get k v s s2 hs
      simp only [engGet, hget, Option.map_some', Option.some.injEq,
        Prod.mk.injEq] at hg
      exact hg.1.symm
  | lfu s =>
    simp only [engSet] at h
    cases hs : lfuSet k v s with
    | none => simp [hs] at h
    | some s2 =>
      simp only [hs, Option.map_some', Option.some.injEq] at h
      subst h
      obtain ⟨id, it, hl, ha, hv⟩ := lfuSet_lookup k v s s2 hs
      simp only [engGet] at hg
      cases hge : lfuGet k s2 with
      | none => simp [hge] at hg
      | some p =>
        obtain ⟨rg, sg⟩ := p
        simp only [hge, Option.map_some', Option.some.injEq,
          Prod.mk.injEq] at hg
        rw [← hv]
        rw [← hg.1]
        exact lfuGet_value k s2 id it hl ha rg sg hge

theorem engSetWithTTL_roundtrip (e0 e : EngSt) (k : Key) (v : Val)
    (now d : Nat) (h : engSetWithTTL e0 k v (now + d) = some e)
    (r0 : Option Val) (e1 : EngSt) (hg : engGet e k now = some (r0, e1)) :
    r0 = some v := by
  cases e0 with
  | basic s =>
    simp only [engSetWithTTL, Option.some.injEq] at h
    subst h
    have hn : ¬ ((⟨k, v, now + d⟩ : BEntry).expiresAt < now) := by
      simp only [BEntry.expiresAt]
      omega
    simp only [engGet, basicGet, basicSetWithTTL, mapLookup_insert_self, hn,
      if_false, Option.some.injEq, Prod.mk.injEq] at hg
    exact hg.1.symm
  | fifo s =>
    simp only [engSetWithTTL] at h
    cases hs : fifoSet k v s with
    | none => simp [hs] at h
    | some s2 =>
      simp only [hs, Option.map_some', Option.some.injEq] at h
      subst h
      simp only [engGet, fifoSet_get k v s s2 hs, Option.map_some',
        Option.some.injEq, Prod.mk.injEq] at hg
      exact hg.1.symm
  | lru s =>
    simp only [engSetWithTTL] at h
    cases hs : lruSet k v s with
    | none => simp [hs] at h
    | some s2 =>
      simp only [hs, Option.map_some', Option.some.injEq] at h
      subst h
      obtain ⟨sg, hget⟩ := lruSet_get k v s s2 hs
      simp only [engGet, hget, Option.map_some', Option.some.injEq,
        Prod.mk.injEq] at hg
      exact hg.1.symm
  | lfu s =>
    simp only [engSetWithTTL] at h
    cases hs : lfuSet k v s with
    | none => simp [hs] at h
    | some s2 =>
      simp only [hs, Option.map_some', Option.some.injEq] at h
      subst h
      obtain ⟨id, it, hl, ha, hv⟩ := lfuSet_lookup k v s s2 hs
      simp only [engGet] at hg
      cases hge : lfuGet k s2 with
      | none => simp [hge] at hg
      | some p =>
        obtain ⟨rg, sg⟩ := p
        simp only [hge, Option.map_some', Option.some.injEq,
          Prod.mk.injEq] at hg
        rw [← hv]
        rw [← hg.1]
        exact lfuGet_value k s2 id it hl ha rg sg hge

theorem bumpHit_eng (c : CacheState) : (bumpHit c).eng = c.eng := by
  unfold bumpHit
  split <;> rfl

theorem bumpMiss_eng (c : CacheState) : (bumpMiss c).eng = c.eng := by
  unfold bumpMiss
  split <;> rfl

theorem bumpHit_cfg (c : CacheState) : (bumpHit c).cfg = c.cfg := by
  unfold bumpHit
  split <;> rfl

theorem bumpMiss_cfg (c : CacheState) : (bumpMiss c).cfg = c.cfg := by
  unfold bumpMiss
  split <;> rfl

/-- What `Cache.Get` answers is exactly what the engine answered, whenever
the call completes. -/
theorem cacheGet_answer (c1 : CacheState) (k : Key) (now : Nat)
    (r0 : Option Val) (e1 : EngSt) (r : Option Val) (c2 : CacheState)
    (hg : engGet c1.eng k now = some (r0, e1))
    (h2 : cacheGet k now c1 = some (r, c2)) : r = r0 := by
  unfold cacheGet at h2
  simp only [hg] at h2
  cases r0 with
  | none =>
    simp only [Option.some.injEq, Prod.mk.injEq] at h2
    exact h2.1.symm
  | some v0 =>
    by_cases hb : (engIsExpirable e1 && engIsExpired e1 k now) = true
    · simp [hb] at h2
    · simp only [Bool.not_eq_true] at hb
      simp only [hb, Bool.false_eq_true, if_false, Option.some.injEq,
        Prod.mk.injEq] at h2
      exact h2.1.symm

/-- C3.  Round trip through the facade: whenever a `set(k, v)` completes
and the immediately following `get(k)` completes (same instant, no
intervening operation), the `get` answers `(v, true)` — for every policy
and from every cache state. -/
theorem spec_c3_set_get_roundtrip (c : CacheState) (k : Key) (v : Val)
    (now : Nat) (c1 : CacheState) (r : Option Val) (c2 : CacheState)
    (h1 : cacheSet k v now c = some c1)
    (h2 : cacheGet k now c1 = some (r, c2)) : r = some v := by
  cases hg : engGet c1.eng k now with
  | none =>
    unfold cacheGet at h2
    simp [hg] at h2
  | some p =>
    obtain ⟨r0, e1⟩ := p
    have hr : r = r0 := cacheGet_answer c1 k now r0 e1 r c2 hg h2
    unfold cacheSet at h1
    split at h1
    · rw [Option.map_eq_some'] at h1
      obtain ⟨e, he, hc1⟩ := h1
      have heng : c1.eng = e := by rw [← hc1, bumpHit_eng]
      rw [heng] at hg
      exact hr.trans
        (engSetWithTTL_roundtrip c.eng e k v now c.cfg.ttl he r0 e1 hg)
    · split at h1
      · rw [Option.map_eq_some'] at h1
        obtain ⟨e, he, hc1⟩ := h1
        have heng : c1.eng = e := by rw [← hc1, bumpHit_eng]
        rw [heng] at hg
        exact hr.trans (engSet_roundtrip c.eng e k v now he r0 e1 hg)
      · split at h1
        · cases hev : engEvict c.eng now with
          | none => rw [hev] at h1; simp at h1
          | some eE =>
            rw [hev] at h1
            rw [Option.map_eq_some'] at h1
            obtain ⟨e, he, hc1⟩ := h1
            have heng : c1.eng = e := by rw [← hc1, bumpHit_eng]
            rw [heng] at hg
            exact hr.trans (engSet_roundtrip eE e k v now he r0 e1 hg)
        · rw [Option.map_eq_some'] at h1
          obtain ⟨e, he, hc1⟩ := h1
          have heng : c1.eng = e := by rw [← hc1, bumpHit_eng]
          rw [heng] at hg
          exact hr.trans (engSet_roundtrip c.eng e k v now he r0 e1 hg)

/-- The Basic-policy cache the C3 witness starts from. -/
def c3Start : CacheState := cacheNew ⟨.basic, 0, 7, true⟩

/-- The state after the witness `set`. -/
def c3AfterSet : CacheState :=
  ⟨.basic ⟨[(kA, ⟨kA, vX, 10⟩)], 7⟩, ⟨.basic, 0, 7, true⟩, 1, 0⟩

/-- The state after the witness `get`. -/
def c3AfterGet : CacheState :=
  ⟨.basic ⟨[(kA, ⟨kA, vX, 10⟩)], 7⟩, ⟨.basic, 0, 7, true⟩, 2, 0⟩

theorem spec_c3_set_get_roundtrip_check :
    cacheSet kA vX 3 c3Start = some c3AfterSet ∧
    cacheGet kA 3 c3AfterSet = some (some vX, c3AfterGet) ∧
    (some vX : Option Val) = some vX :=
  ⟨by decide, by decide,
    spec_c3_set_get_roundtrip c3Start kA vX 3 c3AfterSet (some vX) c3AfterGet
      (by decide) (by decide)⟩

theorem bumpHit_counts (c : CacheState) (h : c.cfg.metricsEnabled = true) :
    (bumpHit c).hits = c.hits + 1 ∧ (bumpHit c).misses = c.misses := by
  simp [bumpHit, h]

theorem bumpMiss_counts (c : CacheState) (h : c.cfg.metricsEnabled = true) :
    (bumpMiss c).misses = c.misses + 1 ∧ (bumpMiss c).hits = c.hits := by
  simp [bumpMiss, h]

/-- C9.  With metrics enabled, every completing facade `set` — on any
policy, new key or overwrite alike — increments the hit counter by
exactly one (the documented quirk), and every completing facade `get`
increments exactly one of the two counters: the hit counter when the key
was found, the miss counter when it was not. -/
theorem spec_c9_metrics_hit_miss (c : CacheState) (k : Key) (v : Val)
    (now : Nat) (hm : c.cfg.metricsEnabled = true) :
    (∀ c1, cacheSet k v now c = some c1 →
      c1.hits = c.hits + 1 ∧ c1.misses = c.misses) ∧
    (∀ r c1, cacheGet k now c = some (r, c1) →
      (r.isSome = true → c1.hits = c.hits + 1 ∧ c1.misses = c.misses) ∧
      (r = none → c1.misses = c.misses + 1 ∧ c1.hits = c.hits)) := by
  constructor
  · intro c1 h1
    have key : ∀ e : EngSt, bumpHit { c with eng := e } = c1 →
        c1.hits = c.hits + 1 ∧ c1.misses = c.misses := by
      intro e he
      have := bumpHit_counts { c with eng := e } hm
      rw [he] at this
      exact this
    unfold cacheSet at h1
    split at h1
    · rw [Option.map_eq_some'] at h1
      obtain ⟨e, _, hc1⟩ := h1
      exact key e hc1
    · split at h1
      · rw [Option.map_eq_some'] at h1
        obtain ⟨e, _, hc1⟩ := h1
        exact key e hc1
      · split at h1
        · cases hev : engEvict c.eng now with
          | none => rw [hev] at h1; simp at h1
          | some eE =>
            rw [hev] at h1
            rw [Option.map_eq_some'] at h1
            obtain ⟨e, _, hc1⟩ := h1
            exact key e hc1
        · rw [Option.map_eq_some'] at h1
          obtain ⟨e, _, hc1⟩ := h1
          exact key e hc1
  · intro r c1 h2
    unfold cacheGet at h2
    cases hg : engGet c.eng k now with
    | none => simp [hg] at h2
    | some p =>
      obtain ⟨r0, e1⟩ := p
      simp only [hg] at h2
      cases r0 with
      | none =>
        simp only [Option.some.injEq, Prod.mk.injEq] at h2
        obtain ⟨hr, hc1⟩ := h2
        subst hr
        constructor
        · intro hsome
          cases hsome
        · intro _
          have := bumpMiss_counts { c with eng := e1 } hm
          rw [hc1] at this
          exact this
      | some v0 =>
        by_cases hb : (engIsExpirable e1 && engIsExpired e1 k now) = true
        · simp [hb] at h2
        · simp only [Bool.not_eq_true] at hb
          simp only [hb, Bool.false_eq_true, if_false, Option.some.injEq,
            Prod.mk.injEq] at h2
          obtain ⟨hr, hc1⟩ := h2
          subst hr
          constructor
          · intro _
            have := bumpHit_counts { c with eng := e1 } hm
            rw [hc1] at this
            exact this
          · intro hnone
            cases hnone

/-- The metrics-enabled LRU cache the C9 witness starts from. -/
def c9Start : CacheState := cacheNew ⟨.lru, 2, 0, true⟩

/-- The C9 witness state after `set A x` (hit counter bumped). -/
def c9AfterSet : CacheState :=
  ⟨.lru ⟨[⟨kA, vX⟩], [(kA, 0)], [0]⟩, ⟨.lru, 2, 0, true⟩, 1, 0⟩

/-- The C9 witness state after a missing `get B` (miss counter bumped). -/
def c9AfterMiss : CacheState :=
  ⟨.lru ⟨[], [], []⟩, ⟨.lru, 2, 0, true⟩, 0, 1⟩

theorem spec_c9_metrics_hit_miss_check :
    (cacheSet kA vX 0 c9Start = some c9AfterSet ∧
      c9AfterSet.hits = c9Start.hits + 1 ∧
      c9AfterSet.misses = c9Start.misses) ∧
    (cacheGet kB 0 c9Start = some (none, c9AfterMiss) ∧
      c9AfterMiss.misses = c9Start.misses + 1 ∧
      c9AfterMiss.hits = c9Start.hits) :=
  ⟨⟨by decide,
    (spec_c9_metrics_hit_miss c9Start kA vX 0 rfl).1 c9AfterSet (by decide)⟩,
   ⟨by decide,
    ((spec_c9_metrics_hit_miss c9Start kB vX 0 rfl).2 none c9AfterMiss
      (by decide)).2 rfl⟩⟩

theorem bumpHit_id (c : CacheState) (h : c.cfg.metricsEnabled = false) :
    bumpHit c = c := by
  simp [bumpHit, h]

theorem bumpMiss_id (c : CacheState) (h : c.cfg.metricsEnabled = false) :
    bumpMiss c = c := by
  simp [bumpMiss, h]

/-- One facade operation on a metrics-disabled cache leaves both counters
and the configuration untouched. -/
theorem runOp_metrics_frame (op : Op) (now : Nat) (c c1 : CacheState)
    (hm : c.cfg.metricsEnabled = false) (h : runOp op now c = some c1) :
    c1.hits = c.hits ∧ c1.misses = c.misses ∧ c1.cfg = c.cfg := by
  have hplain : ∀ (e : EngSt) (d : CacheState),
      ({ c with eng := e } : CacheState) = d →
      d.hits = c.hits ∧ d.misses = c.misses ∧ d.cfg = c.cfg := by
    intro e d he
    rw [← he]
    exact ⟨rfl, rfl, rfl⟩
  have hhit : ∀ (e : EngSt) (d : CacheState), bumpHit { c with eng := e } = d →
      d.hits = c.hits ∧ d.misses = c.misses ∧ d.cfg = c.cfg := by
    intro e d he
    rw [bumpHit_id ({ c with eng := e }) hm] at he
    exact hplain e d he
  have hmiss : ∀ (e : EngSt) (d : CacheState),
      bumpMiss { c with eng := e } = d →
      d.hits = c.hits ∧ d.misses = c.misses ∧ d.cfg = c.cfg := by
    intro e d he
    rw [bumpMiss_id ({ c with eng := e }) hm] at he
    exact hplain e d he
  cases op with
  | get k =>
    simp only [runOp] at h
    rw [Option.map_eq_some'] at h
    obtain ⟨p, hp, hc1⟩ := h
    obtain ⟨r, cg⟩ := p
    unfold cacheGet at hp
    cases hg : engGet c.eng k now with
    | none => simp [hg] at hp
    | some q =>
      obtain ⟨r0, e1⟩ := q
      simp only [hg] at hp
      cases r0 with
      | none =>
        simp only [Option.some.injEq, Prod.mk.injEq] at hp
        rw [← hc1]
        exact hmiss e1 cg hp.2
      | some v0 =>
        by_cases hb : (engIsExpirable e1 && engIsExpired e1 k now) = true
        · simp [hb] at hp
        · simp only [Bool.not_eq_true] at hb
          simp only [hb, Bool.false_eq_true, if_false, Option.some.injEq,
            Prod.mk.injEq] at hp
          rw [← hc1]
          exact hhit e1 cg hp.2
  | set k v =>
    simp only [runOp] at h
    unfold cacheSet at h
    split at h
    · rw [Option.map_eq_some'] at h
      obtain ⟨e, _, hc1⟩ := h
      exact hhit e c1 hc1
    · split at h
      · rw [Option.map_eq_some'] at h
        obtain ⟨e, _, hc1⟩ := h
        exact hhit e c1 hc1
      · split at h
        · cases hev : engEvict c.eng now with
          | none => rw [hev] at h; simp at h
          | some eE =>
            rw [hev] at h
            rw [Option.map_eq_some'] at h
            obtain ⟨e, _, hc1⟩ := h
            exact hhit e c1 hc1
        · rw [Option.map_eq_some'] at h
          obtain ⟨e, _, hc1⟩ := h
          exact hhit e c1 hc1
  | del k =>
    simp only [runOp, cacheDelete] at h
    rw [Option.map_eq_some'] at h
    obtain ⟨e, _, hc1⟩ := h
    exact hplain e c1 hc1
  | has k =>
    simp only [runOp, Option.some.injEq] at h
    rw [← h]
    exact ⟨rfl, rfl, rfl⟩
  | len =>
    simp only [runOp, Option.some.injEq] at h
    rw [← h]
    exact ⟨rfl, rfl, rfl⟩
  | evict =>
    simp only [runOp, cacheEvict] at h
    rw [Option.map_eq_some'] at h
    obtain ⟨e, _, hc1⟩ := h
    exact hplain e c1 hc1

/-- C10.  With metrics disabled, no sequence of facade operations ever
changes the hit or miss counters: both stay at zero. -/
theorem spec_c10_metrics_disabled_frame (ops : List (Op × Nat))
    (c c1 : CacheState) (hm : c.cfg.metricsEnabled = false)
    (hh : c.hits = 0) (hmiss : c.misses = 0)
    (h : runOps ops c = some c1) : c1.hits = 0 ∧ c1.misses = 0 := by
  induction ops generalizing c with
  | nil =>
    simp only [runOps, Option.some.injEq] at h
    rw [← h]
    exact ⟨hh, hmiss⟩
  | cons p t ih =>
    obtain ⟨op, now⟩ := p
    simp only [runOps] at h
    cases h1 : runOp op now c with
    | none => rw [h1] at h; simp at h
    | some cm =>
      rw [h1] at h
      obtain ⟨e1, e2, e3⟩ := runOp_metrics_frame op now c cm hm h1
      exact ih cm (by rw [e3]; exact hm) (by rw [e1]; exact hh)
        (by rw [e2]; exact hmiss) h

/-- The op sequence the C10 witness runs (one of each operation kind). -/
def c10Ops : List (Op × Nat) :=
  [(.set kA vX, 0), (.get kA, 1), (.get kB, 1), (.del kA, 2),
    (.has kA, 2), (.len, 2), (.evict, 3)]

/-- The C10 witness final state: counters still zero. -/
def c10Final : CacheState :=
  ⟨.fifo ⟨[⟨kA, vX⟩], [], []⟩, ⟨.fifo, 2, 0, false⟩, 0, 0⟩

theorem spec_c10_metrics_disabled_frame_check :
    runOps c10Ops (cacheNew cfgFifo2) = some c10Final ∧
    c10Final.hits = 0 ∧ c10Final.misses = 0 :=
  ⟨by decide,
    spec_c10_metrics_disabled_frame c10Ops (cacheNew cfgFifo2) c10Final
      (by decide) (by decide) (by decide) (by decide)⟩

/-- C7.  Basic (TTL) engine: an entry inserted at `now` with the engine's
time-to-live `ttl` is reported present by both `has` and `get` at every
instant `t` up to and including its expiry instant `now + ttl`, and
absent by both at every later instant — and a `get` issued after the
expiry instant deletes the entry from the store before reporting
not-found. -/
theorem spec_c7_basic_ttl_expiry (s : BasicState) (k : Key) (v : Val)
    (now t : Nat) :
    (t ≤ now + s.ttl →
      basicHas k t (basicSet k v now s) = true ∧
      basicGet k t (basicSet k v now s) = (some v, basicSet k v now s)) ∧
    (now + s.ttl < t →
      basicHas k t (basicSet k v now s) = false ∧
      (basicGet k t (basicSet k v now s)).1 = none ∧
      mapLookup (basicGet k t (basicSet k v now s)).2.data k = none) := by
  have hl : mapLookup (basicSet k v now s).data k =
      some ⟨k, v, now + s.ttl⟩ := by
    unfold basicSet
    exact mapLookup_insert_self _ _ _
  constructor
  · intro ht
    have hnl : ¬ ((⟨k, v, now + s.ttl⟩ : BEntry).expiresAt < t) := by
      simp only [BEntry.expiresAt]
      omega
    constructor
    · simp [basicHas, hl, hnl]
    · simp [basicGet, hl, hnl]
  · intro ht
    have hlt : ((⟨k, v, now + s.ttl⟩ : BEntry).expiresAt < t) := ht
    constructor
    · simp [basicHas, hl, hlt]
    · constructor
      · simp [basicGet, hl, hlt]
      · simp only [basicGet, hl, hlt, if_true]
        exact mapLookup_delete_self _ _

/-- The Basic engine the C7 witness starts from (ttl 5, empty store). -/
def c7Start : BasicState := ⟨[], 5⟩

theorem spec_c7_basic_ttl_expiry_check :
    (3 ≤ 0 + c7Start.ttl ∧
      basicHas kA 3 (basicSet kA vX 0 c7Start) = true ∧
      basicGet kA 3 (basicSet kA vX 0 c7Start) =
        (some vX, basicSet kA vX 0 c7Start)) ∧
    (0 + c7Start.ttl < 9 ∧
      basicHas kA 9 (basicSet kA vX 0 c7Start) = false ∧
      (basicGet kA 9 (basicSet kA vX 0 c7Start)).1 = none ∧
      mapLookup (basicGet kA 9 (basicSet kA vX 0 c7Start)).2.data kA =
        none) :=
  ⟨⟨by decide, (spec_c7_basic_ttl_expiry c7Start kA vX 0 3).1 (by decide)⟩,
   ⟨by decide, (spec_c7_basic_ttl_expiry c7Start kA vX 0 9).2 (by decide)⟩⟩

/-- In a map with no duplicate keys, lookup of a stored pair's key finds
exactly that pair's value. -/
theorem mapLookup_mem {β : Type} (l : List (Key × β)) (p : Key × β)
    (hn : (l.map Prod.fst).Nodup) (hp : p ∈ l) :
    mapLookup l p.1 = some p.2 := by
  induction l with
  | nil => cases hp
  | cons q t ih =>
    simp only [List.map_cons, List.nodup_cons] at hn
    cases hp with
    | head => simp [mapLookup, List.find?]
    | tail _ hmem =>
      have hne : q.1 ≠ p.1 := by
        intro hc
        exact hn.1 (hc ▸ List.mem_map_of_mem Prod.fst hmem)
      have hb : (q.1 == p.1) = false := by simpa using hne
      simp only [mapLookup, List.find?, hb]
      exact ih hn.2 hmem

/-- C8, amended.  For FIFO, LRU and LFU, `len()` is the number of stored
keys.  For the Basic engine, `len()` counts the stored keys whose expiry
is strictly in the future; at any instant that is not exactly a stored
key's expiry instant this equals the number of `has()`-true keys (the
counterexample shows the two differ at an exact expiry instant). -/
theorem spec_c8_len_amended :
    (∀ (s : BasicState) (t : Nat),
      (s.data.map Prod.fst).Nodup →
      (∀ p ∈ s.data, p.2.expiresAt ≠ t) →
      basicLen t s = (s.data.filter (fun p => basicHas p.1 t s)).length) ∧
    (∀ s : ListState, fifoLen s = s.data.length) ∧
    (∀ s : ListState, lruLen s = s.data.length) ∧
    (∀ s : LFUState, lfuLen s = s.data.length) := by
  refine ⟨?_, fun s => rfl, fun s => rfl, fun s => rfl⟩
  intro s t hn hne
  unfold basicLen
  rw [← List.countP_eq_length_filter]
  apply List.countP_congr
  intro p hp
  have hl : mapLookup s.data p.1 = some p.2 := mapLookup_mem s.data p hn hp
  have hne2 : p.2.expiresAt ≠ t := hne p hp
  simp only [basicHas, hl]
  constructor
  · intro h1
    have : t < p.2.expiresAt := by simpa using h1
    simp only [Bool.not_eq_true', decide_eq_false_iff_not]
    omega
  · intro h2
    have : ¬ (p.2.expiresAt < t) := by simpa using h2
    simp only [decide_eq_true_eq]
    omega

/-- A two-entry Basic store with distinct keys and expiries 4 and 9. -/
def c8wState : BasicState :=
  ⟨[(kA, ⟨kA, vX, 4⟩), (kB, ⟨kB, vY, 9⟩)], 0⟩

theorem spec_c8_len_amended_check :
    ((c8wState.data.map Prod.fst).Nodup ∧
      (∀ p ∈ c8wState.data, p.2.expiresAt ≠ 6) ∧
      basicLen 6 c8wState =
        (c8wState.data.filter (fun p => basicHas p.1 6 c8wState)).length) ∧
    fifoLen emptyListState = emptyListState.data.length ∧
    lruLen emptyListState = emptyListState.data.length ∧
    lfuLen emptyLFU = emptyLFU.data.length :=
  ⟨⟨by decide, by decide,
    spec_c8_len_amended.1 c8wState 6 (by decide) (by decide)⟩,
   spec_c8_len_amended.2.1 emptyListState,
   spec_c8_len_amended.2.2.1 emptyListState,
   spec_c8_len_amended.2.2.2 emptyLFU⟩

def vA : Val := "a"
def vB : Val := "b"
def vC : Val := "c"

theorem runOps_append (l1 l2 : List (Op × Nat)) (c : CacheState) :
    runOps (l1 ++ l2) c = (runOps l1 c).bind (fun c1 => runOps l2 c1) := by
  induction l1 generalizing c with
  | nil => simp [runOps]
  | cons p t ih =>
    obtain ⟨op, now⟩ := p
    simp only [List.cons_append, runOps]
    cases h : runOp op now c with
    | none => simp
    | some c1 => simp [ih c1]

theorem runOps_replicate_fix (op : Op) (now : Nat) (c : CacheState)
    (h : runOp op now c = some c) (n : Nat) :
    runOps (List.replicate n (op, now)) c = some c := by
  induction n with
  | zero => rfl
  | succ m ih => simp [List.replicate, runOps, h, ih]

/-- C4.  LRU behaviour.  First conjunct: the capacity-2 facade scenario
`set A; set B; get A; set C` keeps A and C and evicts B.  Then, on the
engine: `get` of a present key moves its node to the front (most recently
used) and answers its value; `set` of a present key moves the node to the
front and updates the value; `set` of a new key inserts at the front; and
`evict` removes the back node (least recently used). -/
theorem spec_c4_lru_recency :
    ((runOps [(.set kA vA, 0), (.set kB vB, 0), (.get kA, 0),
        (.set kC vC, 0)] (cacheNew cfgLru2)).map
      (fun c => (cacheHas kA 0 c, cacheHas kB 0 c, cacheHas kC 0 c)) =
      some (true, false, true)) ∧
    (∀ (s : ListState) (k : Key) (id : Nat) (n : LNode),
      mapLookup s.data k = some id → s.arena[id]? = some n →
      lruGet k s =
        some (some n.value, ⟨s.arena, s.data, id :: s.order.erase id⟩)) ∧
    (∀ (s : ListState) (k : Key) (v : Val) (id : Nat) (n : LNode),
      mapLookup s.data k = some id → s.arena[id]? = some n →
      lruSet k v s = some ⟨s.arena.set id { n with value := v }, s.data,
        id :: s.order.erase id⟩) ∧
    (∀ (s : ListState) (k : Key) (v : Val),
      mapLookup s.data k = none →
      lruSet k v s = some ⟨s.arena ++ [⟨k, v⟩],
        mapInsert s.data k s.arena.length, s.arena.length :: s.order⟩) ∧
    (∀ (s : ListState) (id : Nat) (n : LNode),
      s.data.length ≠ 0 → s.order.getLast? = some id →
      s.arena[id]? = some n →
      lruEvict s =
        some ⟨s.arena, mapDelete s.data n.key, s.order.dropLast⟩) := by
  refine ⟨by decide, ?_, ?_, ?_, ?_⟩
  · intro s k id n h1 h2
    simp [lruGet, h1, h2]
  · intro s k v id n h1 h2
    simp [lruSet, h1, h2]
  · intro s k v h1
    simp [lruSet, h1]
  · intro s id n h0 h1 h2
    simp [lruEvict, h0, h1, h2]

/-- The two-entry LRU engine state the C4 witness uses (front id 1 = B,
back id 0 = A). -/
def c4w : ListState := ⟨[⟨kA, vA⟩, ⟨kB, vB⟩], [(kA, 0), (kB, 1)], [1, 0]⟩

theorem spec_c4_lru_recency_check :
    lruGet kA c4w =
      some (some vA, ⟨[⟨kA, vA⟩, ⟨kB, vB⟩], [(kA, 0), (kB, 1)], [0, 1]⟩) ∧
    lruSet kA vX c4w =
      some ⟨[⟨kA, vX⟩, ⟨kB, vB⟩], [(kA, 0), (kB, 1)], [0, 1]⟩ ∧
    lruSet kC vC c4w =
      some ⟨[⟨kA, vA⟩, ⟨kB, vB⟩, ⟨kC, vC⟩],
        [(kA, 0), (kB, 1), (kC, 2)], [2, 1, 0]⟩ ∧
    lruEvict c4w = some ⟨[⟨kA, vA⟩, ⟨kB, vB⟩], [(kB, 1)], [1]⟩ :=
  ⟨spec_c4_lru_recency.2.1 c4w kA 0 ⟨kA, vA⟩ (by decide) (by decide),
   spec_c4_lru_recency.2.2.1 c4w kA vX 0 ⟨kA, vA⟩ (by decide) (by decide),
   spec_c4_lru_recency.2.2.2.1 c4w kC vC (by decide),
   spec_c4_lru_recency.2.2.2.2 c4w 0 ⟨kA, vA⟩ (by decide) (by decide)
     (by decide)⟩

/-- C5 scenario intermediate state: after `set A a` on the capacity-2
FIFO facade. -/
def cF1 : CacheState :=
  ⟨.fifo ⟨[⟨kA, vA⟩], [(kA, 0)], [0]⟩, ⟨.fifo, 2, 0, false⟩, 0, 0⟩

/-- C5 scenario intermediate state: after `set A a; set B b`. -/
def cF2 : CacheState :=
  ⟨.fifo ⟨[⟨kA, vA⟩, ⟨kB, vB⟩], [(kA, 0), (kB, 1)], [0, 1]⟩,
    ⟨.fifo, 2, 0, false⟩, 0, 0⟩

/-- C5 scenario final state: after `set A a; set B b; set C c` (A was
evicted as the queue head before C was inserted). -/
def cF3 : CacheState :=
  ⟨.fifo ⟨[⟨kA, vA⟩, ⟨kB, vB⟩, ⟨kC, vC⟩], [(kB, 1), (kC, 2)], [1, 2]⟩,
    ⟨.fifo, 2, 0, false⟩, 0, 0⟩

/-- C5.  FIFO behaviour.  First conjunct: on the capacity-2 facade,
`set A; set B; set C` with any number of `get A` calls interleaved leaves
A absent and B, C present — reads never affect the insertion order.
Then, on the engine: `set` of a present key updates the value in place
and leaves both the map and the queue untouched; `get` never changes the
state at all; and `evict` removes the queue head (earliest insertion). -/
theorem spec_c5_fifo_insertion_order :
    (∀ n1 n2 : Nat,
      (runOps ([(.set kA vA, 0)] ++ List.replicate n1 (Op.get kA, 0) ++
          [(.set kB vB, 0)] ++ List.replicate n2 (Op.get kA, 0) ++
          [(.set kC vC, 0)]) (cacheNew cfgFifo2)).map
        (fun c => (cacheHas kA 0 c, cacheHas kB 0 c, cacheHas kC 0 c)) =
        some (false, true, true)) ∧
    (∀ (s : ListState) (k : Key) (v : Val) (id : Nat) (n : LNode),
      mapLookup s.data k = some id → s.arena[id]? = some n →
      fifoSet k v s =
        some { s with arena := s.arena.set id { n with value := v } }) ∧
    (∀ (s : ListState) (k : Key) (r : Option Val) (s1 : ListState),
      fifoGet k s = some (r, s1) → s1 = s) ∧
    (∀ (s : ListState) (id : Nat) (n : LNode),
      s.data.length ≠ 0 → s.order.head? = some id →
      s.arena[id]? = some n →
      fifoEvict s =
        some ⟨s.arena, mapDelete s.data n.key, s.order.tail⟩) := by
  refine ⟨?_, ?_, ?_, ?_⟩
  · intro n1 n2
    have e1 : runOps [(.set kA vA, 0)] (cacheNew cfgFifo2) = some cF1 := by
      decide
    have g1 : runOp (.get kA) 0 cF1 = some cF1 := by decide
    have e2 : runOps [(.set kB vB, 0)] cF1 = some cF2 := by decide
    have g2 : runOp (.get kA) 0 cF2 = some cF2 := by decide
    have e3 : runOps [(.set kC vC, 0)] cF2 = some cF3 := by decide
    rw [runOps_append, runOps_append, runOps_append, runOps_append, e1]
    simp only [Option.some_bind]
    rw [runOps_replicate_fix _ _ _ g1 n1]
    simp only [Option.some_bind]
    rw [e2]
    simp only [Option.some_bind]
    rw [runOps_replicate_fix _ _ _ g2 n2]
    simp only [Option.some_bind]
    rw [e3]
    decide
  · intro s k v id n h1 h2
    simp [fifoSet, h1, h2]
  · intro s k r s1 h
    unfold fifoGet at h
    cases h1 : mapLookup s.data k with
    | none =>
      simp only [h1, Option.some.injEq, Prod.mk.injEq] at h
      exact h.2.symm
    | some id =>
      simp only [h1] at h
      cases h2 : s.arena[id]? with
      | none => simp [h2] at h
      | some n =>
        simp only [h2, Option.some.injEq, Prod.mk.injEq] at h
        exact h.2.symm
  · intro s id n h0 h1 h2
    simp [fifoEvict, h0, h1, h2]

/-- The two-entry FIFO engine state the C5 witness uses (queue order
A then B). -/
def c5w : ListState := ⟨[⟨kA, vA⟩, ⟨kB, vB⟩], [(kA, 0), (kB, 1)], [0, 1]⟩

theorem spec_c5_fifo_insertion_order_check :
    ((runOps ([(.set kA vA, 0)] ++ List.replicate 1 (Op.get kA, 0) ++
        [(.set kB vB, 0)] ++ List.replicate 2 (Op.get kA, 0) ++
        [(.set kC vC, 0)]) (cacheNew cfgFifo2)).map
      (fun c => (cacheHas kA 0 c, cacheHas kB 0 c, cacheHas kC 0 c)) =
      some (false, true, true)) ∧
    fifoSet kA vX c5w =
      some ⟨[⟨kA, vX⟩, ⟨kB, vB⟩], [(kA, 0), (kB, 1)], [0, 1]⟩ ∧
    c5w = c5w ∧
    fifoEvict c5w = some ⟨[⟨kA, vA⟩, ⟨kB, vB⟩], [(kB, 1)], [1]⟩ :=
  ⟨spec_c5_fifo_insertion_order.1 1 2,
   spec_c5_fifo_insertion_order.2.1 c5w kA vX 0 ⟨kA, vA⟩ (by decide)
     (by decide),
   spec_c5_fifo_insertion_order.2.2.1 c5w kA (some vA) c5w (by decide),
   spec_c5_fifo_insertion_order.2.2.2 c5w 0 ⟨kA, vA⟩ (by decide) (by decide)
     (by decide)⟩
